import Mathlib

/-!
Verification of the alias-flag validator of the `plugin-alias` bundler plugin.

The embedding models, from `PluginLoader` in the source:
  * the JavaScript regular expression `/(.+)=(.+)/` and its `exec` search
    (unanchored, leftmost start position, greedy backtracking, `.` matching
    every character except line terminators);
  * the `verify` callback: classification of each raw `--alias` string into
    accepted `{ find, replacement }` entries, bad entries and duplicate
    (overwriting) entries, the in-place replacement of `flags.alias`, and the
    construction of the `NonFatalError` message (including the exact
    `JSON.stringify` rendering of the offending lists);
  * the `default` resolver of the flag, which reads the `<PREFIX>_ALIAS`
    environment variable and parses it as JSON (the JSON parser itself is an
    external built-in and is taken as a parameter);
  * the `getInputPlugin` hook handing the configuration to the external
    `@rollup/plugin-alias` transform (modelled opaquely).

JavaScript strings are modelled as `List Char`.
-/

set_option autoImplicit false

/-- One accepted alias mapping, the object `{ find, replacement }` pushed by
`verify` into the `entries` array. -/
structure AliasEntry where
  find : List Char
  replacement : List Char
deriving DecidableEq, Repr

/-- The possible values of the `alias` field of the mutable flags object:
`undefined` (flag absent and no default), an array of raw strings (the parsed
flag occurrences or the JSON array from the environment), or the configured
object `{ entries }` that `verify` writes back. -/
inductive AliasVal where
  | undef : AliasVal
  | strings : List (List Char) → AliasVal
  | config : List AliasEntry → AliasVal
deriving DecidableEq, Repr

/-- Model of `Array.isArray` on the modelled `alias` values. -/
def isJsArray : AliasVal → Bool
  | AliasVal.strings _ => true
  | _ => false

/-- Model of `typeof v === \x27object\x27` on the `alias` values: arrays and
plain objects are of object type, `undefined` is not. -/
def isJsObjectType : AliasVal → Bool
  | AliasVal.undef => false
  | AliasVal.strings _ => true
  | AliasVal.config _ => true

/-- The mutable flags object handed to `verify`: its `alias` field together
with the remaining fields, which `verify` never touches. -/
structure FlagsObj (α : Type) where
  aliasV : AliasVal
  rest : α
deriving DecidableEq, Repr

/-- The `NonFatalError` thrown on verification or default-resolution failure:
a configuration error carrying a user-facing message, marked non-fatal for
the top-level CLI error handler. -/
structure NonFatalError where
  message : List Char
deriving DecidableEq, Repr

/-! ## The regular expression `/(.+)=(.+)/`

`.` in a JavaScript regular expression (without the `s` flag) matches every
character except the four line terminators.  `exec` searches for the leftmost
start position admitting a match; at that position the first `(.+)` is greedy,
so backtracking selects the largest possible first group. -/

/-- Characters matched by `.` in a JavaScript regular expression: everything
except LF, CR, LINE SEPARATOR and PARAGRAPH SEPARATOR. -/
def isDotChar (c : Char) : Bool :=
  !(c = '\n' || c = '\r' || c = Char.ofNat 8232 || c = Char.ofNat 8233)

/-- A split index `k` of the maximal `.`-run `run` is viable for
`(.+)=(.+)` when the first group `run.take k` is non-empty, `run` carries
`=` at index `k`, and at least one character follows it. -/
def validK (run : List Char) (k : Nat) : Bool :=
  decide (1 ≤ k) && decide (k + 2 ≤ run.length) && decide (run.get? k = some '=')

/-- Largest viable split index below `n`, scanning downwards: the greedy
first group backtracks from the longest candidate. -/
def bestKAux (run : List Char) : Nat → Option Nat
  | 0 => none
  | Nat.succ k => if validK run k then some k else bestKAux run k

/-- Largest viable split index of `run`, if any. -/
def bestK (run : List Char) : Option Nat :=
  bestKAux run run.length

/-- Attempt of `/(.+)=(.+)/` at the start of `s`: both groups live inside the
maximal `.`-run at the start of `s`; the greedy first group takes everything
before the largest viable `=`, the second group the rest of the run. -/
def tryHere (s : List Char) : Option (List Char × List Char) :=
  let run := s.takeWhile isDotChar
  match bestK run with
  | some k => some (run.take k, run.drop (k + 1))
  | none => none

/-- Model of `regex.exec (entry)` for `/(.+)=(.+)/`: try each start position from the
left, returning the pair `(matches[1], matches[2])` of the first success. -/
def execSearch : List Char → Option (List Char × List Char)
  | [] => none
  | c :: rest =>
    match tryHere (c :: rest) with
    | some p => some p
    | none => execSearch rest

/-! ## The `verify` callback -/

/-- The reducer `(accum, value) => accum |= value.find === matches[1]` run
over the accepted entries with initial accumulator `false`. -/
def dupFound (entries : List AliasEntry) (f : List Char) : Bool :=
  entries.foldl (fun accum value => accum || decide (value.find = f)) false

/-- Processing state: the arrays `badEntries`, `warnEntries`, `entries`. -/
def processStep (st : List (List Char) × List (List Char) × List AliasEntry)
    (entry : List Char) : List (List Char) × List (List Char) × List AliasEntry :=
  match execSearch entry with
  | some (f, r) =>
    if dupFound st.2.2 f then (st.1, st.2.1 ++ [entry], st.2.2)
    else (st.1, st.2.1, st.2.2 ++ [⟨f, r⟩])
  | none => (st.1 ++ [entry], st.2.1, st.2.2)

/-- The `flags.alias.forEach` loop of `verify`, started from empty arrays:
returns `(badEntries, warnEntries, entries)`. -/
def processEntries (xs : List (List Char)) :
    List (List Char) × List (List Char) × List AliasEntry :=
  xs.foldl processStep ([], [], [])

/-! ### `JSON.stringify` of an array of strings -/

/-- Lower-case hexadecimal digit. -/
def hexDigit (n : Nat) : Char :=
  if n < 10 then Char.ofNat (48 + n) else Char.ofNat (97 + (n - 10))

/-- Escaping of one character of a string, as `JSON.stringify` performs it. -/
def jsonEscapeChar (c : Char) : List Char :=
  if c = '"' then ['\\', '"']
  else if c = '\\' then ['\\', '\\']
  else if c = Char.ofNat 8 then ['\\', 'b']
  else if c = Char.ofNat 12 then ['\\', 'f']
  else if c = '\n' then ['\\', 'n']
  else if c = '\r' then ['\\', 'r']
  else if c = '\t' then ['\\', 't']
  else if c.toNat < 32 then
    ['\\', 'u', hexDigit (c.toNat / 4096 % 16), hexDigit (c.toNat / 256 % 16),
     hexDigit (c.toNat / 16 % 16), hexDigit (c.toNat % 16)]
  else [c]

/-- Rendering of one string by `JSON.stringify`: quoted and escaped. -/
def jsonQuote (s : List Char) : List Char :=
  '"' :: s.flatMap jsonEscapeChar ++ ['"']

/-- Rendering of an array of strings by `JSON.stringify`. -/
def jsonArr (xs : List (List Char)) : List Char :=
  '[' :: List.intercalate [','] (xs.map jsonQuote) ++ [']']

/-! ### The error message -/

/-- The initial `errorMessage` of `verify`. -/
def s_header : List Char := "plugin-alias verification failure:\n".toList

/-- Text before the stringified bad entries. -/
def s_badPre : List Char := "- can not parse ".toList

/-- Text after the stringified bad entries. -/
def s_badPost : List Char :=
  " each entry must be a \x27string\x27 in the format of \x27<xxx>=<yyy>\x27.".toList

/-- Text before the stringified overwriting entries. -/
def s_warnPre : List Char :=
  "- the following entries overwrite previous entries ".toList

/-- Text after the stringified overwriting entries. -/
def s_warnPost : List Char := ".".toList

/-- The message accumulation of `verify`: starting from the header, append
the bad-entry sentence when `badEntries` is non-empty, then the overwrite
sentence (preceded by a newline when both occur); an error is thrown exactly
when the message grew past the header. -/
def buildMsg (bad warn : List (List Char)) : Option (List Char) :=
  let m1 := if 0 < bad.length then s_header ++ (s_badPre ++ jsonArr bad ++ s_badPost)
            else s_header
  let m2 := if 0 < warn.length then
              m1 ++ ((if 0 < bad.length then ['\n'] else []) ++
                     (s_warnPre ++ jsonArr warn ++ s_warnPost))
            else m1
  if m2 = s_header then none else some m2

/-- The `verify` callback: when `flags.alias` is an array it is processed and
replaced in place by the configured object `{ entries }`, and a
`NonFatalError` is thrown when any bad or overwriting entry was seen; any
other value of `flags.alias` leaves the flags object untouched.  The result
pairs the flags object as left behind by `verify` with the thrown error, if
any. -/
def verify {α : Type} (f : FlagsObj α) : FlagsObj α × Option NonFatalError :=
  match f.aliasV with
  | AliasVal.strings xs =>
    let res := processEntries xs
    (⟨AliasVal.config res.2.2, f.rest⟩, (buildMsg res.1 res.2.1).map NonFatalError.mk)
  | _ => (f, none)

/-! ## The `default` resolver of the flag

The flag declaration supplies a `default` function reading the environment
variable `` `${global.$$flag_env_prefix}_ALIAS` ``.  Its value, when set, is
handed to the external built-in `JSON.parse`; the parse itself is external,
so the resolver is parameterised over the parsing function. -/

/-- A JavaScript value produced by `JSON.parse`. -/
inductive Json where
  | jnull : Json
  | jbool : Bool → Json
  | jnum : Int → Json
  | jstr : List Char → Json
  | jarr : List Json → Json
  | jobj : List (List Char × Json) → Json

/-- Model of `Array.isArray` on parsed JSON values. -/
def isArrayJson : Json → Bool
  | Json.jarr _ => true
  | _ => false

/-- The environment variable name `` `${envPre}_ALIAS` ``. -/
def envVarName (envPre : List Char) : List Char :=
  envPre ++ "_ALIAS".toList

/-- The `default` function of the `alias` flag.  `envVal` is
`envVars[envVar]` when that is a string and `none` otherwise; `parseJson`
is the external `JSON.parse`, returning either the parsed value or the
message of the thrown `SyntaxError`.  The resolver returns the parsed array,
or no value when the variable is unset, and throws a `NonFatalError`
on a parse failure or a non-array parse result. -/
def aliasDefault (envPre : List Char) (envVal : Option (List Char))
    (parseJson : List Char → Except (List Char) Json) :
    Except NonFatalError (Option Json) :=
  match envVal with
  | none => Except.ok none
  | some s =>
    match parseJson s with
    | Except.error m =>
      Except.error ⟨"Could not parse \x27".toList ++ envVarName envPre ++
        "\x27 as a JSON array;\n".toList ++ m⟩
    | Except.ok v =>
      if isArrayJson v then Except.ok (some v)
      else Except.error ⟨"Please format \x27".toList ++ envVarName envPre ++
        "\x27 as a JSON array.".toList⟩

/-! ## The `getInputPlugin` hook -/

/-- The object returned by the external `alias(...)` call of
`@rollup/plugin-alias`, opaque except for the configuration passed in. -/
structure RollupPlugin where
  cfg : AliasVal
deriving DecidableEq, Repr

/-- The CLI bundle data handed to `getInputPlugin`: a possibly absent
`cliFlags` object. -/
structure BundleData (α : Type) where
  cliFlags : Option (FlagsObj α)
deriving DecidableEq, Repr

/-- The `getInputPlugin` hook: returns the configured `@rollup/plugin-alias` object
when `bundleData.cliFlags` is present and `bundleData.cliFlags.alias` is of
object type, and no value otherwise. -/
def getInputPlugin {α : Type} (bundleData : BundleData α) : Option RollupPlugin :=
  match bundleData.cliFlags with
  | some fl => if isJsObjectType fl.aliasV then some ⟨fl.aliasV⟩ else none
  | none => none

/-! ## Substring helpers, used to state that a message carries a text -/

/-- Test `leadsWith p s`: `p` is an initial segment of `s`. -/
def leadsWith : List Char → List Char → Bool
  | [], _ => true
  | _ :: _, [] => false
  | a :: as, b :: bs => a = b && leadsWith as bs

/-- Test `occursIn n hay`: `n` appears contiguously inside `hay`. -/
def occursIn : List Char → List Char → Bool
  | n, [] => leadsWith n []
  | n, c :: rest => leadsWith n (c :: rest) || occursIn n rest

/-- The `find` keys of a list of accepted entries. -/
def findsOf (E : List AliasEntry) : List (List Char) := E.map AliasEntry.find

/-- The parse of one raw alias string: the `{ find, replacement }` entry its
match produces, when the pattern matches. -/
def parsedEntry (x : List Char) : Option AliasEntry :=
  (execSearch x).map (fun pr => ⟨pr.1, pr.2⟩)

/-! ## Helper lemmas -/

theorem leadsWith_append (n c : List Char) : leadsWith n (n ++ c) = true := by
  induction n with
  | nil => rfl
  | cons a as ih => simp [leadsWith, ih]

theorem occursIn_of_leadsWith (n h : List Char) (hl : leadsWith n h = true) :
    occursIn n h = true := by
  cases h with
  | nil => simpa [occursIn] using hl
  | cons c rest => simp [occursIn, hl]

theorem occursIn_cons (n : List Char) (x : Char) (h : List Char)
    (ho : occursIn n h = true) : occursIn n (x :: h) = true := by
  simp [occursIn, ho]

theorem occursIn_append (a n c : List Char) : occursIn n (a ++ n ++ c) = true := by
  induction a with
  | nil => exact occursIn_of_leadsWith _ _ (leadsWith_append n c)
  | cons x a' ih => exact occursIn_cons _ _ _ ih

theorem append_ne_self (h X : List Char) (hne : X ≠ []) : h ++ X ≠ h := by
  intro heq
  have hlen := congrArg List.length heq
  simp [List.length_append] at hlen
  exact hne hlen

theorem foldl_or_any (E : List AliasEntry) (p : AliasEntry → Bool) :
    ∀ b : Bool, E.foldl (fun accum value => accum || p value) b = (b || E.any p) := by
  induction E with
  | nil => intro b; simp
  | cons e E' ih => intro b; simp [List.foldl_cons, ih, Bool.or_assoc]

theorem dupFound_eq_any (E : List AliasEntry) (f : List Char) :
    dupFound E f = E.any (fun e => decide (e.find = f)) := by
  simpa using foldl_or_any E (fun e => decide (e.find = f)) false

theorem dupFound_true_iff (E : List AliasEntry) (f : List Char) :
    dupFound E f = true ↔ ∃ e ∈ E, e.find = f := by
  rw [dupFound_eq_any]; simp [List.any_eq_true]

theorem dupFound_false_iff (E : List AliasEntry) (f : List Char) :
    dupFound E f = false ↔ ∀ e ∈ E, e.find ≠ f := by
  rw [← Bool.not_eq_true, dupFound_true_iff]; push_neg; rfl

theorem bestKAux_some (run : List Char) :
    ∀ n k, bestKAux run n = some k →
      k < n ∧ validK run k = true ∧ ∀ j, k < j → j < n → validK run j = false := by
  intro n
  induction n with
  | zero => intro k h; simp [bestKAux] at h
  | succ m ih =>
    intro k h
    by_cases hv : validK run m = true
    · simp [bestKAux, hv] at h
      subst h
      exact ⟨Nat.lt_succ_self m, hv, fun j hj1 hj2 => absurd hj2 (by omega)⟩
    · have hv' : validK run m = false := by
        cases hb : validK run m
        · rfl
        · exact absurd hb hv
      simp [bestKAux, hv'] at h
      obtain ⟨hlt, hval, hmax⟩ := ih k h
      refine ⟨by omega, hval, fun j hj1 hj2 => ?_⟩
      by_cases hjm : j = m
      · subst hjm; exact hv'
      · exact hmax j hj1 (by omega)

theorem bestKAux_none (run : List Char) :
    ∀ n, bestKAux run n = none → ∀ j, j < n → validK run j = false := by
  intro n
  induction n with
  | zero => intro _ j hj; omega
  | succ m ih =>
    intro h j hj
    by_cases hv : validK run m = true
    · simp [bestKAux, hv] at h
    · have hv' : validK run m = false := by
        cases hb : validK run m
        · rfl
        · exact absurd hb hv
      simp [bestKAux, hv'] at h
      by_cases hjm : j = m
      · subst hjm; exact hv'
      · exact ih h j (by omega)

theorem validK_big (run : List Char) (j : Nat) (h : run.length ≤ j + 1) :
    validK run j = false := by
  have : ¬(j + 2 ≤ run.length) := by omega
  simp [validK, this]

theorem takeWhile_all_dots (s : List Char) (h : ∀ c ∈ s, isDotChar c = true) :
    s.takeWhile isDotChar = s := by
  induction s with
  | nil => rfl
  | cons c rest ih =>
    have hc : isDotChar c = true := h c (List.mem_cons_self c rest)
    simp [List.takeWhile_cons, hc, ih (fun x hx => h x (List.mem_cons_of_mem c hx))]

theorem validK_cons_succ (c : Char) (rest : List Char) (k : Nat)
    (h : validK rest k = true) : validK (c :: rest) (k + 1) = true := by
  simp only [validK, Bool.and_eq_true, decide_eq_true_eq] at h ⊢
  obtain ⟨⟨h1, h2⟩, h3⟩ := h
  refine ⟨⟨by omega, by simp [List.length_cons]; omega⟩, ?_⟩
  simpa [List.get?_cons_succ] using h3

theorem tryHere_cons_none (c : Char) (rest : List Char)
    (hall : ∀ x ∈ c :: rest, isDotChar x = true)
    (h : tryHere (c :: rest) = none) : tryHere rest = none := by
  have hrest : ∀ x ∈ rest, isDotChar x = true :=
    fun x hx => hall x (List.mem_cons_of_mem c hx)
  have hrun : (c :: rest).takeWhile isDotChar = c :: rest := takeWhile_all_dots _ hall
  have hrun' : rest.takeWhile isDotChar = rest := takeWhile_all_dots _ hrest
  simp only [tryHere, hrun, hrun'] at h ⊢
  cases hbk : bestK rest with
  | none => simp [hbk]
  | some k =>
    exfalso
    cases hbk' : bestK (c :: rest) with
    | some k' => rw [hbk'] at h; simp at h
    | none =>
      obtain ⟨hlt, hval, -⟩ := bestKAux_some rest rest.length k hbk
      have hvalid : validK (c :: rest) (k + 1) = true := validK_cons_succ c rest k hval
      have hnone := bestKAux_none (c :: rest) (c :: rest).length hbk'
      have hklt : k + 1 < (c :: rest).length := by
        simp [List.length_cons]; omega
      have := hnone (k + 1) hklt
      rw [hvalid] at this
      exact absurd this (by simp)

theorem execSearch_all_dots (s : List Char) (p : List Char × List Char)
    (hall : ∀ x ∈ s, isDotChar x = true) (h : execSearch s = some p) :
    tryHere s = some p := by
  induction s with
  | nil => simp [execSearch] at h
  | cons c rest ih =>
    cases htry : tryHere (c :: rest) with
    | some q =>
      simp only [execSearch, htry] at h
      exact h
    | none =>
      simp only [execSearch, htry] at h
      have hrest : ∀ x ∈ rest, isDotChar x = true :=
        fun x hx => hall x (List.mem_cons_of_mem c hx)
      have := ih hrest h
      rw [tryHere_cons_none c rest hall htry] at this
      exact absurd this (by simp)

/-! ## Claim theorems -/

/-- Claim C1, counterexample: the validator does not split `a=b=c` at the
first `=`.  The greedy first group of `/(.+)=(.+)/` takes `a=b`, so `find`
is `a=b` and `replacement` is `c`, not `a` and `b=c` as the claim states. -/
theorem c1_greedy_counterexample :
    execSearch "a=b=c".toList = some ("a=b".toList, "c".toList) ∧
      execSearch "a=b=c".toList ≠ some ("a".toList, "b=c".toList) ∧
      processEntries ["a=b=c".toList] =
        ([], [], [⟨"a=b".toList, "c".toList⟩]) := by
  refine ⟨by decide, by decide, by decide⟩

/-- Claim C1 (amended): for every alias string of `.`-matchable characters
(no line terminators) accepted by the validation pattern, the greedy match
splits at the last `=` that still leaves a non-empty remainder: the string is
`find ++ "=" ++ replacement` with both sides non-empty, and `=` can occur in
`replacement` only as its final character (so `a=b=c` yields find `a=b` and
replacement `c`, the first `=` staying inside `find`). -/
theorem c1_split_at_last_viable_eq (s f r : List Char)
    (hall : ∀ c ∈ s, isDotChar c = true)
    (hm : execSearch s = some (f, r)) :
    s = f ++ '=' :: r ∧ f ≠ [] ∧ r ≠ [] ∧
      ∀ i, i + 1 < r.length → r.get? i ≠ some '=' := by
  have ht : tryHere s = some (f, r) := execSearch_all_dots s (f, r) hall hm
  have hrun : s.takeWhile isDotChar = s := takeWhile_all_dots s hall
  simp only [tryHere, hrun] at ht
  cases hbk : bestK s with
  | none => rw [hbk] at ht; simp at ht
  | some k =>
    rw [hbk] at ht
    simp only [Option.some.injEq, Prod.mk.injEq] at ht
    obtain ⟨hf, hr⟩ := ht
    obtain ⟨hlt, hval, hmax⟩ := bestKAux_some s s.length k hbk
    simp only [validK, Bool.and_eq_true, decide_eq_true_eq] at hval
    obtain ⟨⟨hk1, hk2⟩, hkeq⟩ := hval
    have hklt : k < s.length := by omega
    refine ⟨?_, ?_, ?_, ?_⟩
    · rw [← hf, ← hr]
      have hget : s.get ⟨k, hklt⟩ = '=' := by
        rw [List.get?_eq_get hklt] at hkeq
        exact Option.some.inj hkeq
      calc s = s.take k ++ s.drop k := (List.take_append_drop k s).symm
        _ = s.take k ++ '=' :: s.drop (k + 1) := by
              rw [List.drop_eq_get_cons hklt, hget]
    · rw [← hf]
      intro hnil
      have := congrArg List.length hnil
      rw [List.length_take] at this
      simp only [List.length_nil] at this
      omega
    · rw [← hr]
      intro hnil
      have := congrArg List.length hnil
      rw [List.length_drop] at this
      simp only [List.length_nil] at this
      omega
    · rw [← hr]
      intro i hi hcontra
      rw [List.get?_drop] at hcontra
      rw [List.length_drop] at hi
      have hj : validK s (k + 1 + i) = true := by
        simp only [validK, Bool.and_eq_true, decide_eq_true_eq]
        exact ⟨⟨by omega, by omega⟩, hcontra⟩
      have hfalse := hmax (k + 1 + i) (by omega) (by omega)
      rw [hj] at hfalse
      exact absurd hfalse (by simp)

/-- Witness for C1: the amended theorem applied to the concrete string
`a=b=c`, whose match yields find `a=b` and replacement `c`. -/
theorem c1_split_witness :
    "a=b=c".toList = "a=b".toList ++ '=' :: "c".toList ∧
      "a=b".toList ≠ [] ∧ "c".toList ≠ [] ∧
      ∀ i, i + 1 < "c".toList.length → "c".toList.get? i ≠ some '=' :=
  c1_split_at_last_viable_eq "a=b=c".toList "a=b".toList "c".toList
    (by decide) (by decide)

/-- Claim C2: a string whose `find` key equals the `find` of an
already-accepted entry is not appended to the accepted entries; it is
recorded (in order) among the overwriting entries, and the accepted set is
unchanged, so the first occurrence keeps its replacement. -/
theorem c2_duplicate_not_appended (xs : List (List Char)) (entry f r : List Char)
    (b w : List (List Char)) (E : List AliasEntry)
    (hp : processEntries xs = (b, w, E))
    (hm : execSearch entry = some (f, r))
    (hd : ∃ e ∈ E, e.find = f) :
    processEntries (xs ++ [entry]) = (b, w ++ [entry], E) := by
  have hdup : dupFound E f = true := (dupFound_true_iff E f).mpr hd
  unfold processEntries at hp ⊢
  rw [List.foldl_append, hp]
  simp [processStep, hm, hdup]

/-- Witness for C2: validating `["a=1", "a=2"]` accepts only
`{find: a, replacement: 1}` and records `"a=2"` as the sole overwriting
entry. -/
theorem c2_duplicate_witness :
    processEntries ["a=1".toList, "a=2".toList] =
      ([], ["a=2".toList], [⟨"a".toList, "1".toList⟩]) :=
  c2_duplicate_not_appended ["a=1".toList] "a=2".toList "a".toList "2".toList
    [] [] [⟨"a".toList, "1".toList⟩] (by decide) (by decide) (by decide)

/-- Claim C7: `getInputPlugin` returns a configured plugin object exactly
when `cliFlags` is present and its `alias` value is of object type; in
particular it returns no value when the alias value is `undefined`. -/
theorem c7_plugin_iff_object {α : Type} (bd : BundleData α) :
    ((getInputPlugin bd).isSome = true ↔
      ∃ fl, bd.cliFlags = some fl ∧ isJsObjectType fl.aliasV = true) ∧
    ∀ fl, bd.cliFlags = some fl → fl.aliasV = AliasVal.undef →
      getInputPlugin bd = none := by
  obtain ⟨cf⟩ := bd
  cases cf with
  | none => simp [getInputPlugin]
  | some fl =>
    constructor
    · cases hobj : isJsObjectType fl.aliasV with
      | true => simp [getInputPlugin, hobj]
      | false => simp [getInputPlugin, hobj]
    · intro fl' hfl hundef
      simp only [Option.some.injEq] at hfl
      subst hfl
      simp [getInputPlugin, hundef, isJsObjectType]

/-- Witness for C7: with `cliFlags` present but `alias` undefined, no plugin
object is produced. -/
theorem c7_plugin_witness :
    getInputPlugin (⟨some ⟨AliasVal.undef, (0 : Nat)⟩⟩ : BundleData Nat) = none :=
  (c7_plugin_iff_object ⟨some ⟨AliasVal.undef, (0 : Nat)⟩⟩).2
    ⟨AliasVal.undef, 0⟩ rfl rfl

/-- Claim C8: verification is deterministic and stateless: two flags objects
carrying equal `alias` values (over any remaining fields) verify to equal
resulting `alias` values and equal error behaviour, and the remaining fields
pass through unchanged. -/
theorem c8_deterministic {α β : Type} (f : FlagsObj α) (g : FlagsObj β)
    (h : f.aliasV = g.aliasV) :
    (verify f).1.aliasV = (verify g).1.aliasV ∧ (verify f).2 = (verify g).2 ∧
      (verify f).1.rest = f.rest := by
  obtain ⟨a, rf⟩ := f
  obtain ⟨b, rg⟩ := g
  dsimp only at h
  subst h
  cases a with
  | undef => exact ⟨rfl, rfl, rfl⟩
  | strings xs => exact ⟨rfl, rfl, rfl⟩
  | config E => exact ⟨rfl, rfl, rfl⟩

/-- Witness for C8: the same alias array in a `Nat`-typed and a `Bool`-typed
flags object verifies identically. -/
theorem c8_deterministic_witness :
    (verify (⟨AliasVal.strings ["a=1".toList], (0 : Nat)⟩ : FlagsObj Nat)).1.aliasV =
      (verify (⟨AliasVal.strings ["a=1".toList], true⟩ : FlagsObj Bool)).1.aliasV ∧
    (verify (⟨AliasVal.strings ["a=1".toList], (0 : Nat)⟩ : FlagsObj Nat)).2 =
      (verify (⟨AliasVal.strings ["a=1".toList], true⟩ : FlagsObj Bool)).2 ∧
    (verify (⟨AliasVal.strings ["a=1".toList], (0 : Nat)⟩ : FlagsObj Nat)).1.rest =
      (⟨AliasVal.strings ["a=1".toList], (0 : Nat)⟩ : FlagsObj Nat).rest :=
  c8_deterministic ⟨AliasVal.strings ["a=1".toList], (0 : Nat)⟩
    ⟨AliasVal.strings ["a=1".toList], true⟩ rfl

/-- Claim C9: when `flags.alias` is not an array (for example `undefined`),
`verify` raises no error and returns the flags object with every field
unchanged. -/
theorem c9_non_array_noop {α : Type} (f : FlagsObj α)
    (h : isJsArray f.aliasV = false) : verify f = (f, none) := by
  obtain ⟨a, r⟩ := f
  cases a with
  | undef => rfl
  | strings xs => simp [isJsArray] at h
  | config E => rfl

/-- Witness for C9: an undefined `alias` value passes through `verify`
untouched and error-free. -/
theorem c9_non_array_witness :
    verify (⟨AliasVal.undef, (7 : Nat)⟩ : FlagsObj Nat) =
      (⟨AliasVal.undef, (7 : Nat)⟩, none) :=
  c9_non_array_noop ⟨AliasVal.undef, 7⟩ rfl

/-- Claim C10: whenever `verify` raises an error, the flags object it leaves
behind already carries the accepted-entries configuration in place of the raw
`alias` array: the replacement happens before the throw and survives it. -/
theorem c10_alias_replaced_on_error {α : Type} (f : FlagsObj α)
    (xs : List (List Char)) (e : NonFatalError)
    (hx : f.aliasV = AliasVal.strings xs)
    (he : (verify f).2 = some e) :
    (verify f).1.aliasV = AliasVal.config (processEntries xs).2.2 := by
  obtain ⟨a, r⟩ := f
  dsimp only at hx
  subst hx
  rfl

/-- Witness for C10: the unparsable input `["x"]` raises an error, yet the
flags object ends up holding the (empty) accepted configuration. -/
theorem c10_alias_replaced_witness :
    (verify (⟨AliasVal.strings ["x".toList], (0 : Nat)⟩ : FlagsObj Nat)).1.aliasV =
      AliasVal.config (processEntries ["x".toList]).2.2 :=
  c10_alias_replaced_on_error ⟨AliasVal.strings ["x".toList], (0 : Nat)⟩
    ["x".toList]
    ⟨s_header ++ (s_badPre ++ jsonArr ["x".toList] ++ s_badPost)⟩ rfl (by decide)

theorem occursIn_append_left (x : List Char) {n h : List Char}
    (ho : occursIn n h = true) : occursIn n (x ++ h) = true := by
  induction x with
  | nil => exact ho
  | cons c x' ih => exact occursIn_cons _ _ _ ih

theorem occursIn_suffix (a n : List Char) : occursIn n (a ++ n) = true := by
  simpa using occursIn_append a n []

theorem occursIn_of_parts {n hay : List Char} (a c : List Char)
    (h : hay = a ++ n ++ c) : occursIn n hay = true := by
  subst h
  exact occursIn_append a n c

/-- Claim C4: the default resolver of the flag: an unset environment
variable resolves to no value; a JSON syntax error raises a `NonFatalError`
whose message carries the variable name and the parse failure; a non-array
parse result raises a `NonFatalError` naming the variable; a parsed array is
returned. -/
theorem c4_env_default_resolution (envPre : List Char)
    (envVal : Option (List Char))
    (parseJson : List Char → Except (List Char) Json) :
    (envVal = none → aliasDefault envPre envVal parseJson = Except.ok none) ∧
    (∀ s m, envVal = some s → parseJson s = Except.error m →
      ∃ e : NonFatalError, aliasDefault envPre envVal parseJson = Except.error e ∧
        occursIn (envVarName envPre) e.message = true ∧
        occursIn m e.message = true) ∧
    (∀ s xs, envVal = some s → parseJson s = Except.ok (Json.jarr xs) →
      aliasDefault envPre envVal parseJson = Except.ok (some (Json.jarr xs))) ∧
    (∀ s v, envVal = some s → parseJson s = Except.ok v → isArrayJson v = false →
      ∃ e : NonFatalError, aliasDefault envPre envVal parseJson = Except.error e ∧
        occursIn (envVarName envPre) e.message = true) := by
  refine ⟨?_, ?_, ?_, ?_⟩
  · intro h; subst h; rfl
  · intro s m hs hp
    subst hs
    refine ⟨⟨"Could not parse \x27".toList ++ envVarName envPre ++
        "\x27 as a JSON array;\n".toList ++ m⟩, ?_, ?_, ?_⟩
    · simp [aliasDefault, hp]
    · exact occursIn_of_parts "Could not parse \x27".toList
        ("\x27 as a JSON array;\n".toList ++ m) (by simp [List.append_assoc])
    · exact occursIn_of_parts
        ("Could not parse \x27".toList ++ envVarName envPre ++
          "\x27 as a JSON array;\n".toList) [] (by simp [List.append_assoc])
  · intro s xs hs hp
    subst hs
    simp [aliasDefault, hp, isArrayJson]
  · intro s v hs hp hv
    subst hs
    refine ⟨⟨"Please format \x27".toList ++ envVarName envPre ++
        "\x27 as a JSON array.".toList⟩, ?_, ?_⟩
    · simp [aliasDefault, hp, hv]
    · exact occursIn_of_parts "Please format \x27".toList
        "\x27 as a JSON array.".toList (by simp [List.append_assoc])

/-- Witness for C4: concrete runs of the default resolver with an unset
variable, a failing parse, and a successful array parse. -/
theorem c4_env_default_witness :
    aliasDefault "DEPLOY".toList none (fun _ => Except.ok Json.jnull) =
      Except.ok none ∧
    (∃ e : NonFatalError,
      aliasDefault "DEPLOY".toList (some "nope".toList)
          (fun _ => Except.error "Unexpected token".toList) = Except.error e ∧
        occursIn (envVarName "DEPLOY".toList) e.message = true ∧
        occursIn "Unexpected token".toList e.message = true) ∧
    aliasDefault "DEPLOY".toList (some "[]".toList)
        (fun _ => Except.ok (Json.jarr [])) = Except.ok (some (Json.jarr [])) :=
  ⟨(c4_env_default_resolution "DEPLOY".toList none
      (fun _ => Except.ok Json.jnull)).1 rfl,
   (c4_env_default_resolution "DEPLOY".toList (some "nope".toList)
      (fun _ => Except.error "Unexpected token".toList)).2.1
      "nope".toList "Unexpected token".toList rfl rfl,
   (c4_env_default_resolution "DEPLOY".toList (some "[]".toList)
      (fun _ => Except.ok (Json.jarr []))).2.2.1 "[]".toList [] rfl rfl⟩

theorem processStep_nodup (st : List (List Char) × List (List Char) × List AliasEntry)
    (entry : List Char) (h : (findsOf st.2.2).Nodup) :
    (findsOf (processStep st entry).2.2).Nodup := by
  obtain ⟨b, w, E⟩ := st
  dsimp only [processStep]
  cases hm : execSearch entry with
  | none => exact h
  | some p =>
    obtain ⟨f, r⟩ := p
    dsimp only
    cases hd : dupFound E f with
    | true =>
      rw [if_pos rfl]
      exact h
    | false =>
      rw [if_neg (by simp)]
      have hnotin : f ∉ findsOf E := by
        intro hmem
        obtain ⟨e, he, hef⟩ := List.mem_map.mp hmem
        exact absurd hef ((dupFound_false_iff E f).mp hd e he)
      have heq : findsOf (E ++ [⟨f, r⟩]) = findsOf E ++ [f] := by
        simp [findsOf]
      rw [heq, List.nodup_append]
      exact ⟨h, List.nodup_singleton f, by
        intro a ha hb
        simp only [List.mem_singleton] at hb
        subst hb
        exact hnotin ha⟩

theorem foldl_nodup (xs : List (List Char)) :
    ∀ st : List (List Char) × List (List Char) × List AliasEntry,
      (findsOf st.2.2).Nodup →
      (findsOf (List.foldl processStep st xs).2.2).Nodup := by
  induction xs with
  | nil => intro st h; exact h
  | cons x xs' ih =>
    intro st h
    rw [List.foldl_cons]
    exact ih _ (processStep_nodup st x h)

/-- Claim C6: the configuration `verify` writes into the flags object has
pairwise-distinct `find` keys. -/
theorem c6_finds_nodup {α : Type} (f : FlagsObj α) (xs : List (List Char))
    (hx : f.aliasV = AliasVal.strings xs) (E : List AliasEntry)
    (hE : (verify f).1.aliasV = AliasVal.config E) :
    (E.map AliasEntry.find).Nodup := by
  obtain ⟨a, r⟩ := f
  dsimp only at hx
  subst hx
  have hcfg : (verify (⟨AliasVal.strings xs, r⟩ : FlagsObj α)).1.aliasV =
      AliasVal.config (processEntries xs).2.2 := rfl
  rw [hcfg] at hE
  have hEeq : (processEntries xs).2.2 = E := by
    injection hE
  have hnodup := foldl_nodup xs ([], [], []) (by simp [findsOf])
  rw [← hEeq]
  simpa [findsOf, processEntries] using hnodup

/-- Witness for C6: the accepted configuration for
`["a=1", "a=2", "b=3"]` has distinct `find` keys `a` and `b`. -/
theorem c6_finds_nodup_witness :
    (([⟨"a".toList, "1".toList⟩,
       ⟨"b".toList, "3".toList⟩] : List AliasEntry).map AliasEntry.find).Nodup :=
  c6_finds_nodup
    (⟨AliasVal.strings ["a=1".toList, "a=2".toList, "b=3".toList], (0 : Nat)⟩ :
      FlagsObj Nat)
    ["a=1".toList, "a=2".toList, "b=3".toList] rfl
    [⟨"a".toList, "1".toList⟩, ⟨"b".toList, "3".toList⟩] (by decide)

theorem foldl_wellformed (xs : List (List Char)) :
    ∀ (ps : List AliasEntry) (b w : List (List Char)) (E : List AliasEntry),
      xs.map parsedEntry = ps.map some →
      ((E ++ ps).map AliasEntry.find).Nodup →
      List.foldl processStep (b, w, E) xs = (b, w, E ++ ps) := by
  induction xs with
  | nil =>
    intro ps b w E hmap _
    have hps : ps = [] := by
      cases ps with
      | nil => rfl
      | cons p ps' => simp at hmap
    subst hps
    simp
  | cons x xs' ih =>
    intro ps b w E hmap hnodup
    cases ps with
    | nil => simp at hmap
    | cons p ps' =>
      obtain ⟨pf, prep⟩ := p
      simp only [List.map_cons, List.cons.injEq] at hmap
      obtain ⟨hx, hxs⟩ := hmap
      have hexec : execSearch x = some (pf, prep) := by
        unfold parsedEntry at hx
        cases hE : execSearch x with
        | none => rw [hE] at hx; simp at hx
        | some pr =>
          obtain ⟨pr1, pr2⟩ := pr
          rw [hE] at hx
          simp [AliasEntry.mk.injEq] at hx
          obtain ⟨h1, h2⟩ := hx
          subst h1
          subst h2
          rfl
      have hnotin : pf ∉ E.map AliasEntry.find := by
        rw [List.map_append, List.nodup_append] at hnodup
        obtain ⟨-, -, hdisj⟩ := hnodup
        intro hmem
        exact hdisj hmem (by simp)
      have hdup : dupFound E pf = false := by
        rw [dupFound_false_iff]
        intro e he heq
        exact hnotin (List.mem_map.mpr ⟨e, he, heq⟩)
      rw [List.foldl_cons]
      have hstep : processStep (b, w, E) x = (b, w, E ++ [⟨pf, prep⟩]) := by
        simp [processStep, hexec, hdup]
      rw [hstep]
      have hrec := ih ps' b w (E ++ [⟨pf, prep⟩]) hxs (by
        rw [List.append_assoc]
        simpa using hnodup)
      rw [hrec, List.append_assoc]
      simp

/-- Evaluation of `buildMsg` on an error-free run: no message. -/
theorem buildMsg_nil_nil : buildMsg [] [] = none := by decide

/-- Claim C5: an input array of well-formed `find=replacement` strings whose
parsed `find` keys are pairwise distinct (the empty array included) verifies
without error, and the configuration written back holds exactly the parsed
entries in input order. -/
theorem c5_wellformed_accepts_all {α : Type} (f : FlagsObj α)
    (xs : List (List Char)) (ps : List AliasEntry)
    (hx : f.aliasV = AliasVal.strings xs)
    (hparse : xs.map parsedEntry = ps.map some)
    (hnodup : (ps.map AliasEntry.find).Nodup) :
    verify f = (⟨AliasVal.config ps, f.rest⟩, none) := by
  obtain ⟨a, r⟩ := f
  dsimp only at hx ⊢
  subst hx
  have hrun : processEntries xs = ([], [], ps) := by
    unfold processEntries
    simpa using foldl_wellformed xs ps [] [] [] hparse (by simpa using hnodup)
  show ((⟨AliasVal.config (processEntries xs).2.2, r⟩ : FlagsObj α),
      (buildMsg (processEntries xs).1 (processEntries xs).2.1).map NonFatalError.mk) =
    ((⟨AliasVal.config ps, r⟩ : FlagsObj α), none)
  rw [hrun]
  simp [buildMsg_nil_nil]

/-- Witness for C5: `["a=1", "b=2"]` verifies without error into the two
parsed entries in order. -/
theorem c5_wellformed_witness :
    verify (⟨AliasVal.strings ["a=1".toList, "b=2".toList], (0 : Nat)⟩ :
        FlagsObj Nat) =
      (⟨AliasVal.config [⟨"a".toList, "1".toList⟩, ⟨"b".toList, "2".toList⟩],
        (0 : Nat)⟩, none) :=
  c5_wellformed_accepts_all
    ⟨AliasVal.strings ["a=1".toList, "b=2".toList], (0 : Nat)⟩
    ["a=1".toList, "b=2".toList]
    [⟨"a".toList, "1".toList⟩, ⟨"b".toList, "2".toList⟩]
    rfl (by decide) (by decide)

theorem append_ne_nil_of_left (u v : List Char) (hu : u ≠ []) : u ++ v ≠ [] :=
  fun h => hu (List.append_eq_nil.mp h).1

theorem append_ne_nil_of_right (u v : List Char) (hv : v ≠ []) : u ++ v ≠ [] :=
  fun h => hv (List.append_eq_nil.mp h).2

/-- Evaluation of `buildMsg` when only bad entries occurred. -/
theorem buildMsg_bad_nil (x : List Char) (b' : List (List Char)) :
    buildMsg (x :: b') [] =
      some (s_header ++ (s_badPre ++ jsonArr (x :: b') ++ s_badPost)) := by
  simp [buildMsg]
  exact fun h1 _ => absurd h1 (by decide)

/-- Evaluation of `buildMsg` when only overwriting entries occurred. -/
theorem buildMsg_nil_warn (y : List Char) (w' : List (List Char)) :
    buildMsg [] (y :: w') =
      some (s_header ++ (s_warnPre ++ jsonArr (y :: w') ++ s_warnPost)) := by
  simp [buildMsg]
  exact fun h1 _ => absurd h1 (by decide)

/-- Evaluation of `buildMsg` when both kinds occurred: one concatenated message. -/
theorem buildMsg_bad_warn (x y : List Char) (b' w' : List (List Char)) :
    buildMsg (x :: b') (y :: w') =
      some (s_header ++ (s_badPre ++ jsonArr (x :: b') ++ s_badPost) ++
        (['\n'] ++ (s_warnPre ++ jsonArr (y :: w') ++ s_warnPost))) := by
  simp [buildMsg, List.append_assoc]

/-- Claim C3: `verify` raises a `NonFatalError` precisely when the run saw a
bad or an overwriting entry, and the single message then carries the
`JSON.stringify` enumeration of the bad entries (when any) and of the
overwriting entries (when any). -/
theorem c3_error_iff_bad_or_warn {α : Type} (f : FlagsObj α)
    (xs b w : List (List Char)) (E : List AliasEntry)
    (hx : f.aliasV = AliasVal.strings xs)
    (hp : processEntries xs = (b, w, E)) :
    ((verify f).2.isSome = true ↔ (b ≠ [] ∨ w ≠ [])) ∧
    ∀ e : NonFatalError, (verify f).2 = some e →
      (b ≠ [] → occursIn (jsonArr b) e.message = true) ∧
      (w ≠ [] → occursIn (jsonArr w) e.message = true) := by
  obtain ⟨a, r⟩ := f
  dsimp only at hx
  subst hx
  have hv : (verify (⟨AliasVal.strings xs, r⟩ : FlagsObj α)).2 =
      (buildMsg b w).map NonFatalError.mk := by
    show (buildMsg (processEntries xs).1 (processEntries xs).2.1).map
      NonFatalError.mk = _
    rw [hp]
  rw [hv]
  rcases b with _ | ⟨x, b'⟩ <;> rcases w with _ | ⟨y, w'⟩
  · rw [buildMsg_nil_nil]
    exact ⟨by simp, fun e he => by simp at he⟩
  · rw [buildMsg_nil_warn]
    refine ⟨by simp, fun e he => ?_⟩
    simp at he
    subst he
    exact ⟨fun hb => absurd rfl hb,
      fun _ => occursIn_of_parts (s_header ++ s_warnPre) s_warnPost
        (by simp [List.append_assoc])⟩
  · rw [buildMsg_bad_nil]
    refine ⟨by simp, fun e he => ?_⟩
    simp at he
    subst he
    exact ⟨fun _ => occursIn_of_parts (s_header ++ s_badPre) s_badPost
        (by simp [List.append_assoc]),
      fun hw => absurd rfl hw⟩
  · rw [buildMsg_bad_warn]
    refine ⟨by simp, fun e he => ?_⟩
    simp at he
    subst he
    refine ⟨fun _ => ?_, fun _ => ?_⟩
    · exact occursIn_of_parts (s_header ++ s_badPre)
        (s_badPost ++ (['\n'] ++ (s_warnPre ++ jsonArr (y :: w') ++ s_warnPost)))
        (by simp [List.append_assoc])
    · exact occursIn_of_parts
        (s_header ++ (s_badPre ++ jsonArr (x :: b') ++ s_badPost) ++ ['\n'] ++
          s_warnPre) s_warnPost (by simp [List.append_assoc])

/-- Witness for C3: the input `["x", "a=1", "a=2"]` (one bad entry, one
overwriting entry) raises an error whose message carries both stringified
lists. -/
theorem c3_error_witness :
    ∃ e : NonFatalError,
      (verify (⟨AliasVal.strings ["x".toList, "a=1".toList, "a=2".toList],
          (0 : Nat)⟩ : FlagsObj Nat)).2 = some e ∧
        occursIn (jsonArr ["x".toList]) e.message = true ∧
        occursIn (jsonArr ["a=2".toList]) e.message = true := by
  have h := c3_error_iff_bad_or_warn
    (⟨AliasVal.strings ["x".toList, "a=1".toList, "a=2".toList], (0 : Nat)⟩ :
      FlagsObj Nat)
    ["x".toList, "a=1".toList, "a=2".toList]
    ["x".toList] ["a=2".toList] [⟨"a".toList, "1".toList⟩] rfl (by decide)
  have hs := h.1.mpr (Or.inl (by decide))
  obtain ⟨e, he⟩ := Option.isSome_iff_exists.mp hs
  exact ⟨e, he, (h.2 e he).1 (by decide), (h.2 e he).2 (by decide)⟩
